import Mathlib

/-
Verification of the orphics cosmology module (orphics/cosmology.py):
shallow embedding of the RedshiftGrid construction, the Limber integrator,
the kernel builder, the spectrum interpolation store, the noise model and
the forecast engine, together with theorems settling the specification
claims about them.

Machine reals are modelled by exact rationals (ℚ) where the code is pure
arithmetic, and by ℝ where transcendental functions (exp, sqrt, rpow)
appear.  numpy arrays become Lean lists; boolean-mask indexing becomes
list filtering; python dicts become association lists.
-/

namespace Orphics

/-! ## RedshiftGrid (LimberCosmology.__init__, lines 165-169)

`self.chis = np.linspace(0,self.chistar,numz)`
`self.dchis = (self.chis[2:]-self.chis[:-2])/2`
`self.chis = self.chis[1:-1]`
-/

/-- Embedding of `np.linspace a b n`: `n` uniformly spaced points from `a` to `b` inclusive. -/
def linspace (a b : ℚ) (n : ℕ) : List ℚ :=
  (List.range n).map (fun i : ℕ => a + (b - a) * (i : ℚ) / ((n : ℚ) - 1))

/-- Embedding of `(chis[2:] - chis[:-2])/2`: centered-difference trapezoid weights. -/
def dchisOf (chis : List ℚ) : List ℚ :=
  List.zipWith (fun a b => (b - a) / 2) chis (chis.drop 2)

/-- Embedding of `chis[1:-1]`: drop the two endpoint samples. -/
def trimEnds (chis : List ℚ) : List ℚ :=
  (chis.drop 1).dropLast

/-- The raw (untrimmed) distance grid of `LimberCosmology.__init__`. -/
def redshiftGridChis (chistar : ℚ) (numz : ℕ) : List ℚ :=
  linspace 0 chistar numz

theorem linspace_length (a b : ℚ) (n : ℕ) : (linspace a b n).length = n := by
  unfold linspace
  rw [List.length_map, List.length_range]

theorem redshiftGridChis_length (chistar : ℚ) (numz : ℕ) :
    (redshiftGridChis chistar numz).length = numz :=
  linspace_length 0 chistar numz

theorem linspace_getD (a b : ℚ) (n : ℕ) (i : ℕ) (h : i < n) :
    (linspace a b n).getD i 0 = a + (b - a) * i / ((n : ℚ) - 1) := by
  rw [List.getD_eq_getElem _ _ (by rw [linspace_length]; exact h)]
  unfold linspace
  rw [List.getElem_map, List.getElem_range]

theorem dchisOf_length (chis : List ℚ) : (dchisOf chis).length = chis.length - 2 := by
  simp [dchisOf]

theorem trimEnds_length (chis : List ℚ) : (trimEnds chis).length = chis.length - 2 := by
  simp [trimEnds]
  omega

theorem dchisOf_getD (chis : List ℚ) (i : ℕ) (h : i < chis.length - 2) :
    (dchisOf chis).getD i 0 = (chis.getD (i + 2) 0 - chis.getD i 0) / 2 := by
  rw [List.getD_eq_getElem _ _ (by rw [dchisOf_length]; exact h),
    List.getD_eq_getElem _ _ (show i + 2 < chis.length by omega),
    List.getD_eq_getElem _ _ (show i < chis.length by omega)]
  unfold dchisOf
  rw [List.getElem_zipWith]
  simp only [List.getElem_drop]
  have h21 : 2 + i = i + 2 := Nat.add_comm 2 i
  simp only [h21]

/-- Every centered-difference weight of the uniform grid equals one grid
spacing `chistar/(numz-1)`. -/
theorem dchisOf_linspace_getD (chistar : ℚ) (numz : ℕ) (i : ℕ)
    (h : i < numz - 2) :
    (dchisOf (redshiftGridChis chistar numz)).getD i 0 =
      chistar / ((numz : ℚ) - 1) := by
  have hlen : (redshiftGridChis chistar numz).length = numz := linspace_length _ _ _
  have hidx : i < (redshiftGridChis chistar numz).length - 2 := by omega
  rw [dchisOf_getD _ _ hidx]
  have e1 : (redshiftGridChis chistar numz).getD (i + 2) 0 =
      0 + (chistar - 0) * (i + 2 : ℕ) / ((numz : ℚ) - 1) :=
    linspace_getD 0 chistar numz (i + 2) (by omega)
  have e2 : (redshiftGridChis chistar numz).getD i 0 =
      0 + (chistar - 0) * (i : ℕ) / ((numz : ℚ) - 1) :=
    linspace_getD 0 chistar numz i (by omega)
  rw [e1, e2]
  push_cast
  ring

theorem dchisOf_linspace_eq_replicate (chistar : ℚ) (numz : ℕ) :
    dchisOf (redshiftGridChis chistar numz) =
      List.replicate (numz - 2) (chistar / ((numz : ℚ) - 1)) := by
  apply List.ext_getElem
  · rw [dchisOf_length, redshiftGridChis_length, List.length_replicate]
  · intro i h1 h2
    have hi : i < numz - 2 := by
      rw [dchisOf_length, redshiftGridChis_length] at h1
      exact h1
    have hD := dchisOf_linspace_getD chistar numz i hi
    rw [List.getD_eq_getElem _ _ h1] at hD
    rw [hD]
    simp

/-- Claim C8: for every `numz ≥ 4` and `chi_target > 0`, the RedshiftGrid
built from `numz` uniformly spaced distances in `[0, chi_target]` has
`numz-2` usable samples, its weights satisfy
`dchi[i] = (chi[i+2]-chi[i])/2` on the original indexing, and the sum of
all weights approximates `chi_target` within quadrature error (it equals
`chi_target*(numz-2)/(numz-1)`, hence differs from `chi_target` by exactly
one grid spacing `chi_target/(numz-1)`). -/
theorem redshiftGrid_weights_spec (chistar : ℚ) (numz : ℕ)
    (hn : 4 ≤ numz) (hpos : 0 < chistar) :
    (trimEnds (redshiftGridChis chistar numz)).length = numz - 2 ∧
    (dchisOf (redshiftGridChis chistar numz)).length = numz - 2 ∧
    (∀ i : ℕ, i < numz - 2 →
      (dchisOf (redshiftGridChis chistar numz)).getD i 0 =
        ((redshiftGridChis chistar numz).getD (i + 2) 0 -
          (redshiftGridChis chistar numz).getD i 0) / 2) ∧
    (dchisOf (redshiftGridChis chistar numz)).sum =
      chistar * ((numz : ℚ) - 2) / ((numz : ℚ) - 1) ∧
    |(dchisOf (redshiftGridChis chistar numz)).sum - chistar| ≤
      chistar / ((numz : ℚ) - 1) := by
  have hlen : (redshiftGridChis chistar numz).length = numz := linspace_length _ _ _
  have hsum : (dchisOf (redshiftGridChis chistar numz)).sum =
      chistar * ((numz : ℚ) - 2) / ((numz : ℚ) - 1) := by
    rw [dchisOf_linspace_eq_replicate, List.sum_replicate, nsmul_eq_mul]
    have : ((numz - 2 : ℕ) : ℚ) = (numz : ℚ) - 2 := by
      push_cast [Nat.cast_sub (by omega : 2 ≤ numz)]
      ring
    rw [this]
    ring
  refine ⟨by rw [trimEnds_length, hlen], by rw [dchisOf_length, hlen], ?_, hsum, ?_⟩
  · intro i h
    exact dchisOf_getD _ _ (by omega)
  · rw [hsum]
    have hden : (0:ℚ) < (numz : ℚ) - 1 := by
      have : (4:ℚ) ≤ (numz : ℚ) := by exact_mod_cast hn
      linarith
    have hdiff : chistar * ((numz : ℚ) - 2) / ((numz : ℚ) - 1) - chistar =
        -(chistar / ((numz : ℚ) - 1)) := by
      field_simp
      ring
    rw [hdiff, abs_neg, abs_of_pos (div_pos hpos hden)]

/-- Witness for C8 at `numz = 5`, `chi_target = 100`. -/
theorem redshiftGrid_weights_spec_witness :
    (4 ≤ 5 ∧ (0:ℚ) < 100) ∧
    (dchisOf (redshiftGridChis 100 5)).sum = 100 * (((5:ℕ) : ℚ) - 2) / (((5:ℕ) : ℚ) - 1) :=
  ⟨⟨by decide, by decide⟩, (redshiftGrid_weights_spec 100 5 (by decide) (by decide)).2.2.2.1⟩

/-! ## Delta-function lensing window (LimberCosmology._lensWindow, lines 254-258)

`retvals = ((1.-self.chis/(self.results.comoving_radial_distance(zthis))))`
`retvals[self.zs>zthis] = 0.`

`addDeltaNz` (lines 279-289) registers `dndz = "delta"`, `zdelta = zsource`
and calls `_generateWindow`, which stores these raw values as the kernel's
`window_z` samples before the lensing prefactor scaling. -/

/-- The raw values `1 - chi_i / chi(zthis)` before masking. -/
def lensWindowDeltaRaw (crd : ℚ → ℚ) (chis : List ℚ) (zthis : ℚ) : List ℚ :=
  chis.map (fun chi => 1 - chi / crd zthis)

/-- The masked assignment `retvals[zs > zthis] = 0`. -/
def lensWindowDelta (crd : ℚ → ℚ) (chis zs : List ℚ) (zthis : ℚ) : List ℚ :=
  List.zipWith (fun r z => if zthis < z then 0 else r)
    (lensWindowDeltaRaw crd chis zthis) zs

/-- The `window_z` sample values a kernel registered through `addDeltaNz`
carries (before the physical `W` prefactor scaling). -/
def addDeltaNzWindowZ (crd : ℚ → ℚ) (chis zs : List ℚ) (zsource : ℚ) : List ℚ :=
  lensWindowDelta crd chis zs zsource

/-- Claim C2: for a kernel built with a delta-function redshift
distribution at source redshift `z_s`, the window function produced by the
kernel builder equals `1 - chi(z)/chi(z_s)` at every grid point with
`z ≤ z_s` and equals `0` at every grid point with `z > z_s`. -/
theorem addDeltaNz_window_spec (crd : ℚ → ℚ) (chis zs : List ℚ) (zsource : ℚ)
    (hlen : zs.length = chis.length) (i : ℕ) (hi : i < chis.length) :
    ((zs.getD i 0 ≤ zsource →
        (addDeltaNzWindowZ crd chis zs zsource).getD i 0 =
          1 - chis.getD i 0 / crd zsource) ∧
      (zsource < zs.getD i 0 →
        (addDeltaNzWindowZ crd chis zs zsource).getD i 0 = 0)) := by
  have hzi : i < zs.length := by omega
  have hwlen : (addDeltaNzWindowZ crd chis zs zsource).length = chis.length := by
    simp [addDeltaNzWindowZ, lensWindowDelta, lensWindowDeltaRaw, hlen]
  have hw : (addDeltaNzWindowZ crd chis zs zsource).getD i 0 =
      (if zsource < zs[i] then 0 else 1 - chis[i] / crd zsource) := by
    rw [List.getD_eq_getElem _ _ (by rw [hwlen]; exact hi)]
    unfold addDeltaNzWindowZ lensWindowDelta lensWindowDeltaRaw
    rw [List.getElem_zipWith, List.getElem_map]
  rw [List.getD_eq_getElem _ _ hzi, List.getD_eq_getElem _ _ hi, hw]
  constructor
  · intro hle
    rw [if_neg (not_lt.mpr hle)]
  · intro hgt
    rw [if_pos hgt]

/-- Witness for C2 on a concrete three-point grid with `crd z = 2z`,
`z_s = 2`: the point `z = 1 ≤ 2` gets `1 - 1/4` and the point `z = 3 > 2`
gets `0`. -/
theorem addDeltaNz_window_spec_witness :
    ((addDeltaNzWindowZ (fun z => 2 * z) [1, 2, 3] [1, 2, 3] 2).getD 0 0 =
        1 - (1 : ℚ) / (2 * 2)) ∧
    ((addDeltaNzWindowZ (fun z => 2 * z) [1, 2, 3] [1, 2, 3] 2).getD 2 0 = 0) := by
  constructor
  · have h := (addDeltaNz_window_spec (fun z => 2 * z) [1, 2, 3] [1, 2, 3] 2
      (by decide) 0 (by decide)).1 (by decide)
    simpa using h
  · exact (addDeltaNz_window_spec (fun z => 2 * z) [1, 2, 3] [1, 2, 3] 2
      (by decide) 2 (by decide)).2 (by decide)

/-! ## Forecast engine bin averaging (LensForecast._bin_cls, lines 748-759)

Spectrum tags are two-character strings (`'kk'`, `'kg'`, ...), modelled as
pairs of characters (`a,b = spec`).  The loaded theory spectra and the
registered noise curves become total function parameters `C`/`N` from
tag and multipole to value. -/

/-- Embedding of `np.arange(ell_left, ell_right+1, 1)`. -/
def arangeIncl (l r : ℕ) : List ℕ :=
  List.range' l (r + 1 - l)

/-- Embedding of `LensForecast._bin_cls`: multipole-weighted average of signal
(plus noise on auto spectra) over the bin `[l, r]`. -/
def bin_cls (C N : Char × Char → ℕ → ℚ) (spec : Char × Char) (l r : ℕ)
    (noise : Bool) : ℚ :=
  let ells := arangeIncl l r
  let tot := ells.map (fun e =>
    C spec e + (if noise then (if spec.1 = spec.2 then N spec e else 0) else 0))
  (List.zipWith (fun (e : ℕ) t => (e : ℚ) * t) ells tot).sum /
    (ells.map (fun e => (e : ℚ))).sum

/-- Claim C10: in the forecast engine's bin averaging, instrumental noise
is added only to auto spectra: for a tag whose two probe letters are equal
the registered noise curve is added to the signal before the
multipole-weighted bin average, while for a tag whose two letters differ
the added noise is exactly zero even when noise inclusion is requested, so
cross-spectrum bin averages are always noise-free. -/
theorem bin_cls_noise_only_auto (C N : Char × Char → ℕ → ℚ)
    (a b : Char) (l r : ℕ) :
    (a = b → bin_cls C N (a, b) l r true =
      (List.zipWith (fun (e : ℕ) t => (e : ℚ) * t) (arangeIncl l r)
          ((arangeIncl l r).map (fun e => C (a, b) e + N (a, b) e))).sum /
        ((arangeIncl l r).map (fun e => (e : ℚ))).sum) ∧
    (a ≠ b → bin_cls C N (a, b) l r true = bin_cls C N (a, b) l r false) := by
  constructor
  · intro hab
    unfold bin_cls
    simp [hab]
  · intro hab
    unfold bin_cls
    simp [hab]

/-- Witness for C10: with constant unit signal and constant unit noise on
the bin `[1,2]`, the auto tag `kk` averages signal+noise while the cross
tag `kg` averages the signal alone. -/
theorem bin_cls_noise_only_auto_witness :
    bin_cls (fun _ _ => 1) (fun _ _ => 1) ('k', 'k') 1 2 true =
      (List.zipWith (fun (e : ℕ) t => (e : ℚ) * t) (arangeIncl 1 2)
          ((arangeIncl 1 2).map (fun e =>
            (fun (_ : Char × Char) (_ : ℕ) => (1:ℚ)) ('k', 'k') e +
              (fun (_ : Char × Char) (_ : ℕ) => (1:ℚ)) ('k', 'k') e))).sum /
        ((arangeIncl 1 2).map (fun e => (e : ℚ))).sum ∧
    bin_cls (fun _ _ => 1) (fun _ _ => 1) ('k', 'g') 1 2 true =
      bin_cls (fun _ _ => 1) (fun _ _ => 1) ('k', 'g') 1 2 false :=
  ⟨(bin_cls_noise_only_auto (fun _ _ => 1) (fun _ _ => 1) 'k' 'k' 1 2).1 rfl,
    (bin_cls_noise_only_auto (fun _ _ => 1) (fun _ _ => 1) 'k' 'g' 1 2).2
      (by decide)⟩

/-! ## Knox covariance (LensForecast.KnoxCov, lines 761-788)

Per bin `(l, r)` drawn from consecutive bin edges:
`ClSum = ClTot(X+W)*ClTot(Y+Z)+ClTot(X+Z)*ClTot(Y+W)` with
`ClTot(spec) = _bin_cls(spec, noise=True)`, and
`var = ClSum/(2*ellMid+1)/ellWidth/fsky`.  Only the list of per-bin
variances (`covs`) is embedded here; the `sigs1`/`sigs2` outputs
(noise-free signal-to-noise accumulators) are not needed by any claim. -/

/-- The list of per-bin Knox variances returned by `LensForecast.KnoxCov`. -/
def KnoxCovVars (C N : Char × Char → ℕ → ℚ) (XY WZ : Char × Char)
    (edges : List ℕ) (fsky : ℚ) : List ℚ :=
  (edges.zip edges.tail).map (fun p =>
    let ClSum :=
      bin_cls C N (XY.1, WZ.1) p.1 p.2 true * bin_cls C N (XY.2, WZ.2) p.1 p.2 true +
        bin_cls C N (XY.1, WZ.2) p.1 p.2 true * bin_cls C N (XY.2, WZ.1) p.1 p.2 true
    ClSum / (2 * (((p.2 : ℚ) + (p.1 : ℚ)) / 2) + 1) / ((p.2 : ℚ) - (p.1 : ℚ)) / fsky)

/-- Claim C3: for every spectrum pair `(XY, WZ)`, every multipole bin
`[l, r]` and every `f_sky > 0`, the Knox covariance of the bin equals
`(C_tot(XW)*C_tot(YZ) + C_tot(XZ)*C_tot(YW)) / ((2*ell_mid+1) * Δℓ * f_sky)`
where `C_tot` is the multipole-weighted bin average of signal plus noise,
and when `XY = WZ` with `X = Y` this reduces to
`2*(C_ℓ+N_ℓ)² / ((2*ell_mid+1) * Δℓ * f_sky)` for the bin-averaged total
spectrum. -/
theorem KnoxCov_var_spec (C N : Char × Char → ℕ → ℚ) (XY WZ : Char × Char)
    (edges : List ℕ) (fsky : ℚ) (hf : 0 < fsky) :
    KnoxCovVars C N XY WZ edges fsky =
      (edges.zip edges.tail).map (fun p =>
        (bin_cls C N (XY.1, WZ.1) p.1 p.2 true * bin_cls C N (XY.2, WZ.2) p.1 p.2 true +
            bin_cls C N (XY.1, WZ.2) p.1 p.2 true * bin_cls C N (XY.2, WZ.1) p.1 p.2 true) /
          ((2 * (((p.2 : ℚ) + (p.1 : ℚ)) / 2) + 1) * ((p.2 : ℚ) - (p.1 : ℚ)) * fsky)) ∧
    (WZ = XY → XY.1 = XY.2 →
      KnoxCovVars C N XY WZ edges fsky =
        (edges.zip edges.tail).map (fun p =>
          2 * bin_cls C N XY p.1 p.2 true ^ 2 /
            ((2 * (((p.2 : ℚ) + (p.1 : ℚ)) / 2) + 1) * ((p.2 : ℚ) - (p.1 : ℚ)) * fsky))) := by
  constructor
  · apply List.map_congr_left
    intro p _
    rw [div_div, div_div, mul_assoc]
  · intro hWZ hXY
    obtain ⟨X, Y⟩ := XY
    obtain ⟨Wc, Zc⟩ := WZ
    simp only [Prod.mk.injEq] at hWZ
    obtain ⟨hW, hZ⟩ := hWZ
    subst hW
    subst hZ
    simp only at hXY
    subst hXY
    apply List.map_congr_left
    intro p _
    rw [div_div, div_div, mul_assoc]
    ring

/-- Witness for C3: constant unit spectra, zero noise, a single bin
`[1,3]`, `f_sky = 1`; the bin-averaged total is `1` so the Knox variance
is `2/((2*2+1)*2) = 1/5`. -/
theorem KnoxCov_var_spec_witness :
    (0 : ℚ) < 1 ∧
    KnoxCovVars (fun _ _ => 1) (fun _ _ => 0) ('k', 'k') ('k', 'k') [1, 3] 1 =
      [1 / 5] := by
  refine ⟨by decide, ?_⟩
  have h := (KnoxCov_var_spec (fun _ _ => 1) (fun _ _ => 0) ('k', 'k') ('k', 'k')
    [1, 3] 1 (by decide)).2 rfl rfl
  rw [h]
  norm_num [bin_cls, arangeIncl, List.range', List.replicate, List.zipWith]

/-! ## Spectrum interpolation store (TheorySpectra.loadGenericCls, lines 493-501)

`fill_zero=False`:
`fillval = Cls[ells<lpad][-1]`
`f = piecewise(x, [x<=lpad, x>lpad],`
`      [interp1d(ells[ells<lpad], Cls[ells<lpad], fill_value=0), fillval*(lpad/y)**4])`

`scipy.interpolate.interp1d` with linear kind and `fill_value=0` is
embedded as `interpPts`: piecewise-linear between consecutive samples,
zero outside the sample range. -/

/-- Linear interpolation through a sorted sample list, zero fill outside. -/
def interpPts : List (ℚ × ℚ) → ℚ → ℚ
  | [], _ => 0
  | p :: tail, x =>
    match tail with
    | [] => if x = p.1 then p.2 else 0
    | q :: rest =>
      if x < p.1 then 0
      else if x ≤ q.1 then p.2 + (q.2 - p.2) * (x - p.1) / (q.1 - p.1)
      else interpPts (q :: rest) x

theorem interpPts_cons_cons (p q : ℚ × ℚ) (rest : List (ℚ × ℚ)) (x : ℚ) :
    interpPts (p :: q :: rest) x =
      if x < p.1 then 0
      else if x ≤ q.1 then p.2 + (q.2 - p.2) * (x - p.1) / (q.1 - p.1)
      else interpPts (q :: rest) x := rfl

/-- The samples kept by the `ells < lpad` mask. -/
def clsBelowLpad (ells Cls : List ℚ) (lpad : ℚ) : List (ℚ × ℚ) :=
  (ells.zip Cls).filter (fun p => p.1 < lpad)

/-- The continuous spectrum stored by `TheorySpectra.loadGenericCls`. -/
def loadGenericClsFun (ells Cls : List ℚ) (lpad : ℚ) (fill_zero : Bool) :
    ℚ → ℚ :=
  let pts := clsBelowLpad ells Cls lpad
  if fill_zero then fun x => interpPts pts x
  else
    let fillval := (pts.map Prod.snd).getLastD 0
    fun x => if x ≤ lpad then interpPts pts x else fillval * (lpad / x) ^ 4

/-- On a strictly sorted sample list, `interpPts` evaluated between the
consecutive samples `(x0,y0)` and `(x1,y1)` is the linear interpolant of
that segment. -/
theorem interpPts_segment (l1 : List (ℚ × ℚ)) (l2 : List (ℚ × ℚ))
    (x0 y0 x1 y1 t : ℚ)
    (hs : List.Pairwise (fun p q : ℚ × ℚ => p.1 < q.1)
      (l1 ++ (x0, y0) :: (x1, y1) :: l2))
    (h0 : x0 ≤ t) (h1 : t ≤ x1) :
    interpPts (l1 ++ (x0, y0) :: (x1, y1) :: l2) t =
      y0 + (y1 - y0) * (t - x0) / (x1 - x0) := by
  induction l1 with
  | nil =>
    simp only [List.nil_append]
    rw [interpPts_cons_cons]
    rw [if_neg (not_lt.mpr h0), if_pos h1]
  | cons a l1 ih =>
    obtain ⟨harel, hs'⟩ := List.pairwise_cons.mp hs
    have ha : a.1 < x0 := harel (x0, y0) (by simp)
    cases l1 with
    | nil =>
      rw [List.cons_append, List.nil_append, interpPts_cons_cons]
      rw [if_neg (not_lt.mpr (le_of_lt (lt_of_lt_of_le ha h0)))]
      by_cases ht0 : t ≤ x0
      · have htx0 : t = x0 := le_antisymm ht0 h0
        rw [if_pos ht0, htx0]
        have hne : x0 - a.1 ≠ 0 := sub_ne_zero.mpr (ne_of_gt ha)
        rw [sub_self, mul_zero, zero_div, add_zero, mul_div_assoc,
          div_self hne, mul_one]
        ring
      · rw [if_neg ht0]
        rw [interpPts_cons_cons]
        rw [if_neg (not_lt.mpr h0), if_pos h1]
    | cons b l1' =>
      have hmem : (x0, y0) ∈ l1' ++ (x0, y0) :: (x1, y1) :: l2 := by simp
      have hb : b.1 < x0 := List.rel_of_pairwise_cons hs' hmem
      rw [List.cons_append, List.cons_append, interpPts_cons_cons]
      rw [if_neg (not_lt.mpr (le_of_lt (lt_of_lt_of_le ha h0)))]
      rw [if_neg (not_le.mpr (lt_of_lt_of_le hb h0))]
      exact ih hs'

/-- Claim C5: with `fill_zero = false`, the stored continuous spectrum
evaluates, for every multipole `ell > lpad`, to `fillval * (lpad/ell)^4`
where `fillval` is the last supplied sample value below `lpad`; in
particular the value at `ell = 2*lpad` equals `fillval/16`, and for
multipoles below `lpad` (between consecutive supplied samples) values are
linearly interpolated between the supplied samples. -/
theorem loadGenericCls_highell_spec (ells Cls : List ℚ) (lpad : ℚ)
    (hpos : 0 < lpad)
    (hsort : List.Pairwise (fun p q : ℚ × ℚ => p.1 < q.1)
      (clsBelowLpad ells Cls lpad)) :
    (∀ x, lpad < x → loadGenericClsFun ells Cls lpad false x =
      ((clsBelowLpad ells Cls lpad).map Prod.snd).getLastD 0 * (lpad / x) ^ 4) ∧
    (loadGenericClsFun ells Cls lpad false (2 * lpad) =
      ((clsBelowLpad ells Cls lpad).map Prod.snd).getLastD 0 / 16) ∧
    (∀ l1 l2 x0 y0 x1 y1 t,
      clsBelowLpad ells Cls lpad = l1 ++ (x0, y0) :: (x1, y1) :: l2 →
      x0 ≤ t → t ≤ x1 →
      loadGenericClsFun ells Cls lpad false t =
        y0 + (y1 - y0) * (t - x0) / (x1 - x0)) := by
  have hup : ∀ x, lpad < x → loadGenericClsFun ells Cls lpad false x =
      ((clsBelowLpad ells Cls lpad).map Prod.snd).getLastD 0 * (lpad / x) ^ 4 := by
    intro x hx
    unfold loadGenericClsFun
    simp only [Bool.false_eq_true, if_false]
    rw [if_neg (not_le.mpr hx)]
  refine ⟨hup, ?_, ?_⟩
  · rw [hup (2 * lpad) (by linarith)]
    have h2 : lpad / (2 * lpad) = 1 / 2 := by
      rw [div_eq_div_iff (by linarith) (by norm_num)]
      ring
    rw [h2]
    ring
  · intro l1 l2 x0 y0 x1 y1 t heq ht0 ht1
    have hx1mem : (x1, y1) ∈ clsBelowLpad ells Cls lpad := by
      rw [heq]
      simp
    have hx1lt : x1 < lpad := by
      have := List.of_mem_filter hx1mem
      simpa using this
    have htle : t ≤ lpad := le_of_lt (lt_of_le_of_lt ht1 hx1lt)
    unfold loadGenericClsFun
    simp only [Bool.false_eq_true, if_false]
    rw [if_pos htle]
    rw [heq] at hsort ⊢
    exact interpPts_segment l1 l2 x0 y0 x1 y1 t hsort ht0 ht1

/-- Witness for C5: samples `(2,10) (4,20) (6,30)` with `lpad = 5` keep
`(2,10)` and `(4,20)`; `fillval = 20`, the value at `10 = 2*lpad` is
`20/16 = 5/4`, and the value at `3` interpolates to `15`. -/
theorem loadGenericCls_highell_spec_witness :
    ((0 : ℚ) < 5) ∧
    loadGenericClsFun [2, 4, 6] [10, 20, 30] 5 false 10 = 5 / 4 ∧
    loadGenericClsFun [2, 4, 6] [10, 20, 30] 5 false (2 * 5) = 5 / 4 ∧
    loadGenericClsFun [2, 4, 6] [10, 20, 30] 5 false 3 = 15 := by
  have h := loadGenericCls_highell_spec [2, 4, 6] [10, 20, 30] 5 (by decide)
    (by decide)
  refine ⟨by decide, ?_, ?_, ?_⟩
  · rw [h.1 10 (by decide)]
    norm_num [clsBelowLpad]
  · rw [h.2.1]
    norm_num [clsBelowLpad]
  · rw [h.2.2 [] [] 2 10 4 20 3 (by decide) (by decide) (by decide)]
    norm_num

/-! ## Noise model (noise_func / atm_factor / white_noise_with_atm_func,
lines 849-874)

`atm_factor`: `if lknee>1.e-3: (lknee/ell)**(-alpha) else: 0`
`white_noise_with_atm_func`:
`(atmFactor+1)*(uk_arcmin*pi/(180*60))**2*dfact`
`noise_func`: `nfact * exp(tht_fwhm**2*ell**2/(8*log(2)))` with
`tht_fwhm = deg2rad(fwhm/60)`. -/

/-- Embedding of `np.deg2rad`. -/
noncomputable def deg2rad (x : ℝ) : ℝ := x * Real.pi / 180

/-- Embedding of `atm_factor(ell, lknee, alpha)`. -/
noncomputable def atm_factor (ell lknee alpha : ℝ) : ℝ :=
  if lknee > 1 / 1000 then Real.rpow (lknee / ell) (-alpha) else 0

/-- Embedding of `white_noise_with_atm_func(ell, uk_arcmin, lknee, alpha, dimensionless, TCMB)`. -/
noncomputable def white_noise_with_atm_func (ell uk_arcmin lknee alpha : ℝ)
    (dimensionless : Bool) (TCMB : ℝ) : ℝ :=
  (atm_factor ell lknee alpha + 1) * (uk_arcmin * Real.pi / (180 * 60)) ^ 2 *
    (if dimensionless then 1 / TCMB ^ 2 else 1)

/-- Embedding of `noise_func(ell, fwhm, rms_noise, lknee, alpha, dimensionless, TCMB)`. -/
noncomputable def noise_func (ell fwhm rms_noise lknee alpha : ℝ)
    (dimensionless : Bool) (TCMB : ℝ) : ℝ :=
  white_noise_with_atm_func ell rms_noise lknee alpha dimensionless TCMB *
    Real.exp (deg2rad (fwhm / 60) ^ 2 * ell ^ 2 / (8 * Real.log 2))

/-- Counterexample to claim C9 as stated: the code's atmosphere branch
fires only for `lknee > 1e-3`, not for every `lknee > 0`.  At
`ell = 1`, `fwhm = 0`, `rms_noise = 10800/π`, `lknee = 1e-4`, `alpha = 1`
the code returns `1` (the atmosphere factor is dropped), while the
claim's formula with `atmosphere_factor = (lknee/ell)^(-alpha)` would
give `10001`. -/
theorem noise_func_lknee_counterexample :
    noise_func 1 0 (10800 / Real.pi) (1 / 10000) 1 false 1 = 1 ∧
    (Real.rpow ((1 / 10000) / 1) (-1) + 1) *
        ((10800 / Real.pi) * Real.pi / (180 * 60)) ^ 2 *
        Real.exp (deg2rad (0 / 60) ^ 2 * 1 ^ 2 / (8 * Real.log 2)) = 10001 ∧
    (1 : ℝ) ≠ 10001 := by
  have hpi : Real.pi ≠ 0 := Real.pi_ne_zero
  have hwhite : (10800 / Real.pi) * Real.pi / (180 * 60) = 1 := by
    rw [div_mul_cancel₀ _ hpi]
    norm_num
  have hexp : Real.exp (deg2rad (0 / 60) ^ 2 * 1 ^ 2 / (8 * Real.log 2)) = 1 := by
    have : deg2rad (0 / 60) = 0 := by
      unfold deg2rad
      norm_num
    rw [this]
    norm_num
  refine ⟨?_, ?_, by norm_num⟩
  · unfold noise_func white_noise_with_atm_func atm_factor
    rw [if_neg (by norm_num)]
    simp only [Bool.false_eq_true, if_false]
    rw [hwhite, hexp]
    norm_num
  · have hr : Real.rpow ((1 / 10000) / 1) (-1) = 10000 := by
      show ((1 : ℝ) / 10000 / 1) ^ (-1 : ℝ) = 10000
      rw [show (-1 : ℝ) = ((-1 : ℤ) : ℝ) by norm_num, Real.rpow_intCast]
      norm_num
    rw [hr, hwhite, hexp]
    norm_num

/-- Claim C9 (amended): for every multipole `ell > 0`, the noise model
returns `(atmosphere_factor + 1) * white_level^2` multiplied by the
beam-deconvolution factor `exp(theta_fwhm^2 * ell^2 / (8*ln 2))`, where
`white_level = rms_noise*π/(180*60)` and `atmosphere_factor` equals
`(lknee/ell)^(-alpha)` whenever `lknee > 1e-3` (the code's threshold, not
`lknee > 0` as originally claimed) and equals `0` otherwise. -/
theorem noise_func_spec (ell fwhm rms_noise lknee alpha TCMB : ℝ)
    (hell : 0 < ell) :
    noise_func ell fwhm rms_noise lknee alpha false TCMB =
      ((if lknee > 1 / 1000 then Real.rpow (lknee / ell) (-alpha) else 0) + 1) *
        (rms_noise * Real.pi / (180 * 60)) ^ 2 *
        Real.exp ((fwhm / 60 * Real.pi / 180) ^ 2 * ell ^ 2 / (8 * Real.log 2)) := by
  unfold noise_func white_noise_with_atm_func atm_factor deg2rad
  simp only [Bool.false_eq_true, if_false]
  ring

/-- Witness for C9 (amended) at `ell = 2`, `lknee = 1`, `alpha = 3`. -/
theorem noise_func_spec_witness :
    (0 : ℝ) < 2 ∧
    noise_func 2 1 1 1 3 false 1 =
      ((if (1 : ℝ) > 1 / 1000 then Real.rpow ((1 : ℝ) / 2) (-3) else 0) + 1) *
        ((1 : ℝ) * Real.pi / (180 * 60)) ^ 2 *
        Real.exp (((1 : ℝ) / 60 * Real.pi / 180) ^ 2 * 2 ^ 2 / (8 * Real.log 2)) :=
  ⟨by norm_num, noise_func_spec 2 1 1 1 3 1 (by norm_num)⟩

/-! ## Joint cross-correlation estimator (LensForecast.snRatio, lines 803-847)

The loaded theory spectra (`self.theory.gCl(tag, ellMid)`) and noise
curves (`self.Nls[tag](ellMid)`) become total function parameters
`G`/`N : String → ℝ → ℝ`; per bin the code forms `r0 = Clkg/Clsg`, the
analytic variance `sigmaZsq`, and accumulates `sumchisq`, `signum`,
`sigden`; finally `maxlike = signum/sigden`, `sigmaR = 1/sqrt(sumchisq)`,
`percentR = sigmaR*100/maxlike`, `snR = maxlike/sigmaR`. -/

/-- The per-bin analytic variance `sigmaZsq` of `snRatio` (including the
`pref = 1/(fsky*(2*ellMid+1)*ellWidth)` scaling). -/
noncomputable def sigmaZsqOf (G N : String → ℝ → ℝ) (fsky ellMid ellWidth : ℝ) : ℝ :=
  let Clkk := G "kk" ellMid
  let Nlkk := N "kk" ellMid
  let Nlgg := N "gg" ellMid
  let Nlss := N "ss" ellMid
  let Clkg := G "kg" ellMid
  let Clgg := G "gg" ellMid
  let Clks := G "ks" ellMid
  let Clss := G "ss" ellMid
  let Clsg := G "sg" ellMid
  let r0 := Clkg / Clsg
  let pref := 1 / (fsky * (2 * ellMid + 1) * ellWidth)
  (((Clkk + Nlkk) * (Clgg + Nlgg)) + Clkg ^ 2 +
      (r0 ^ 2 * ((Clss + Nlss) * (Clgg + Nlgg) + Clsg ^ 2)) -
      (2 * r0 * (Clks * (Clgg + Nlgg) + Clkg * Clsg))) * pref

/-- Embedding of `zip(ellMids, ellWidths)` with `ellMids = (edges[1:]+edges[:-1])/2`
and `ellWidths = np.diff(edges)`. -/
noncomputable def snRatioBins (edges : List ℝ) : List (ℝ × ℝ) :=
  List.zipWith (fun a b => ((b + a) / 2, b - a)) edges edges.tail

/-- Embedding of `LensForecast.snRatio`, returning `(percentR, snR, maxlike)`. -/
noncomputable def snRatioCalc (G N : String → ℝ → ℝ) (edges : List ℝ)
    (fsky : ℝ) : ℝ × ℝ × ℝ :=
  let acc := (snRatioBins edges).foldl
    (fun acc mw =>
      (acc.1 + G "sg" mw.1 ^ 2 / sigmaZsqOf G N fsky mw.1 mw.2,
        acc.2.1 + G "kg" mw.1 * G "sg" mw.1 / sigmaZsqOf G N fsky mw.1 mw.2,
        acc.2.2 + G "sg" mw.1 ^ 2 / sigmaZsqOf G N fsky mw.1 mw.2))
    (0, 0, 0)
  let maxlike := acc.2.1 / acc.2.2
  let sigmaR := 1 / Real.sqrt acc.1
  (sigmaR * 100 / maxlike, maxlike / sigmaR, maxlike)

/-- Folding the three accumulators is summing the three per-bin term lists. -/
theorem foldl_add_triple {α : Type} (f g h : α → ℝ) (l : List α) (a b c : ℝ) :
    l.foldl (fun acc x => (acc.1 + f x, acc.2.1 + g x, acc.2.2 + h x)) (a, b, c) =
      (a + (l.map f).sum, b + (l.map g).sum, c + (l.map h).sum) := by
  induction l generalizing a b c with
  | nil => simp
  | cons x l ih =>
    rw [List.foldl_cons, List.map_cons, List.map_cons, List.map_cons,
      List.sum_cons, List.sum_cons, List.sum_cons]
    rw [ih]
    simp only [Prod.mk.injEq]
    refine ⟨by ring, by ring, by ring⟩

/-- The flat toy spectra of the claim: each of the six probes is a
constant in multipole. -/
def flatSpectra (ckk cgg css ckg cks csg : ℝ) : String → ℝ → ℝ :=
  fun tag _ =>
    if tag = "kk" then ckk
    else if tag = "gg" then cgg
    else if tag = "ss" then css
    else if tag = "kg" then ckg
    else if tag = "ks" then cks
    else if tag = "sg" then csg
    else 0

/-- The no-noise configuration. -/
def zeroNoise : String → ℝ → ℝ := fun _ _ => 0

/-- The bin-independent part of `sigmaZsq` for flat spectra and no noise. -/
noncomputable def sigmaZsqFlat (ckk cgg css ckg cks csg : ℝ) : ℝ :=
  (ckk * cgg) + ckg ^ 2 + ((ckg / csg) ^ 2 * ((css * cgg) + csg ^ 2)) -
    (2 * (ckg / csg) * ((cks * cgg) + ckg * csg))

theorem sigmaZsqOf_flat (ckk cgg css ckg cks csg fsky m w : ℝ) :
    sigmaZsqOf (flatSpectra ckk cgg css ckg cks csg) zeroNoise fsky m w =
      sigmaZsqFlat ckk cgg css ckg cks csg * (1 / (fsky * (2 * m + 1) * w)) := by
  show (((ckk + 0) * (cgg + 0)) + ckg ^ 2 +
      ((ckg / csg) ^ 2 * ((css + 0) * (cgg + 0) + csg ^ 2)) -
      (2 * (ckg / csg) * (cks * (cgg + 0) + ckg * csg))) *
      (1 / (fsky * (2 * m + 1) * w)) = _
  unfold sigmaZsqFlat
  ring

/-- Counterexample to claim C4 as stated: when all six spectra are the
same constant and there is no noise, the per-bin variance `sigmaZsq`
vanishes identically (the probes are perfectly correlated), so the
accumulated amplitude is `0/0` — `nan` in the floating-point code, `0`
in this exact embedding — and not the flat constant `r0 = Clkg/Clsg = 1`
the claim asserts. -/
theorem snRatio_flat_identical_counterexample :
    sigmaZsqOf (flatSpectra 1 1 1 1 1 1) zeroNoise 1 1 2 = 0 ∧
    (snRatioCalc (flatSpectra 1 1 1 1 1 1) zeroNoise [0, 2] 1).2.2 = 0 ∧
    (0 : ℝ) ≠ 1 := by
  have hσ : sigmaZsqOf (flatSpectra 1 1 1 1 1 1) zeroNoise 1 1 2 = 0 := by
    rw [sigmaZsqOf_flat]
    unfold sigmaZsqFlat
    norm_num
  refine ⟨hσ, ?_, by norm_num⟩
  have hbins : snRatioBins [0, 2] = [((1 : ℝ), (2 : ℝ))] := by
    unfold snRatioBins
    norm_num
  unfold snRatioCalc
  rw [hbins]
  simp only [List.foldl_cons, List.foldl_nil]
  rw [hσ]
  norm_num

/-- Claim C4 (amended): the joint cross-correlation estimator accumulates
`signum = Σ Clkg*Clsg/σ_Z²` and `sigden = Σ Clsg²/σ_Z²` over bins, returns
the amplitude `signum/sigden`, the uncertainty `1/sqrt(Σ chisq)` with
`chisq = Clsg²/σ_Z²`, and the signal-to-noise as amplitude over
uncertainty.  For flat per-bin-constant spectra with no noise,
`r0 = Clkg/Clsg` is the same in every bin and the amplitude equals that
constant — provided the bin-independent variance factor `σ_Z²` does not
vanish (for six *identical* constants it does vanish, so the original
claim's scenario is ill-defined; see the counterexample). -/
theorem snRatio_joint_estimator_spec (ckk cgg css ckg cks csg fsky : ℝ)
    (edges : List ℝ)
    (hcsg : csg ≠ 0)
    (hS0 : sigmaZsqFlat ckk cgg css ckg cks csg ≠ 0)
    (hD : ∀ mw ∈ snRatioBins edges, 0 < fsky * (2 * mw.1 + 1) * mw.2)
    (hne : snRatioBins edges ≠ []) :
    (∀ (G N : String → ℝ → ℝ) (eds : List ℝ) (fs : ℝ),
      (snRatioCalc G N eds fs).2.2 =
        ((snRatioBins eds).map
            (fun mw => G "kg" mw.1 * G "sg" mw.1 / sigmaZsqOf G N fs mw.1 mw.2)).sum /
          ((snRatioBins eds).map
            (fun mw => G "sg" mw.1 ^ 2 / sigmaZsqOf G N fs mw.1 mw.2)).sum ∧
      (snRatioCalc G N eds fs).2.1 =
        (snRatioCalc G N eds fs).2.2 /
          (1 / Real.sqrt (((snRatioBins eds).map
            (fun mw => G "sg" mw.1 ^ 2 / sigmaZsqOf G N fs mw.1 mw.2)).sum))) ∧
    (∀ mw, mw ∈ snRatioBins edges →
      flatSpectra ckk cgg css ckg cks csg "kg" mw.1 /
        flatSpectra ckk cgg css ckg cks csg "sg" mw.1 = ckg / csg) ∧
    (snRatioCalc (flatSpectra ckk cgg css ckg cks csg) zeroNoise edges fsky).2.2 =
      ckg / csg := by
  have hcomp : ∀ (G N : String → ℝ → ℝ) (eds : List ℝ) (fs : ℝ),
      (snRatioCalc G N eds fs).2.2 =
        ((snRatioBins eds).map
            (fun mw => G "kg" mw.1 * G "sg" mw.1 / sigmaZsqOf G N fs mw.1 mw.2)).sum /
          ((snRatioBins eds).map
            (fun mw => G "sg" mw.1 ^ 2 / sigmaZsqOf G N fs mw.1 mw.2)).sum ∧
      (snRatioCalc G N eds fs).2.1 =
        (snRatioCalc G N eds fs).2.2 /
          (1 / Real.sqrt (((snRatioBins eds).map
            (fun mw => G "sg" mw.1 ^ 2 / sigmaZsqOf G N fs mw.1 mw.2)).sum)) := by
    intro G N eds fs
    unfold snRatioCalc
    rw [foldl_add_triple]
    simp only [zero_add]
    exact ⟨trivial, trivial⟩

  refine ⟨hcomp, ?_, ?_⟩
  · intro mw _
    rfl
  · rw [(hcomp (flatSpectra ckk cgg css ckg cks csg) zeroNoise edges fsky).1]
    set S0 := sigmaZsqFlat ckk cgg css ckg cks csg with hS0def
    have hterm1 : ∀ mw ∈ snRatioBins edges,
        flatSpectra ckk cgg css ckg cks csg "kg" mw.1 *
            flatSpectra ckk cgg css ckg cks csg "sg" mw.1 /
          sigmaZsqOf (flatSpectra ckk cgg css ckg cks csg) zeroNoise fsky mw.1 mw.2 =
          ckg * csg / S0 * (fsky * (2 * mw.1 + 1) * mw.2) := by
      intro mw hmw
      rw [sigmaZsqOf_flat]
      show ckg * csg / (S0 * (1 / (fsky * (2 * mw.1 + 1) * mw.2))) = _
      rw [mul_one_div, div_div_eq_mul_div, div_mul_eq_mul_div]
    have hterm2 : ∀ mw ∈ snRatioBins edges,
        flatSpectra ckk cgg css ckg cks csg "sg" mw.1 ^ 2 /
          sigmaZsqOf (flatSpectra ckk cgg css ckg cks csg) zeroNoise fsky mw.1 mw.2 =
          csg ^ 2 / S0 * (fsky * (2 * mw.1 + 1) * mw.2) := by
      intro mw hmw
      rw [sigmaZsqOf_flat]
      show csg ^ 2 / (S0 * (1 / (fsky * (2 * mw.1 + 1) * mw.2))) = _
      rw [mul_one_div, div_div_eq_mul_div, div_mul_eq_mul_div]
    rw [List.map_congr_left hterm1, List.map_congr_left hterm2]
    have hmulsum : ∀ q : ℝ,
        ((snRatioBins edges).map
          (fun mw => q * (fsky * (2 * mw.1 + 1) * mw.2))).sum =
          q * ((snRatioBins edges).map
            (fun mw => fsky * (2 * mw.1 + 1) * mw.2)).sum := by
      intro q
      induction snRatioBins edges with
      | nil => simp
      | cons x l ih =>
        rw [List.map_cons, List.map_cons, List.sum_cons, List.sum_cons, ih]
        ring
    rw [hmulsum, hmulsum]
    have hT : 0 < ((snRatioBins edges).map
        (fun mw => fsky * (2 * mw.1 + 1) * mw.2)).sum := by
      apply List.sum_pos
      · intro x hx
        obtain ⟨mw, hmw, hxeq⟩ := List.mem_map.mp hx
        rw [← hxeq]
        exact hD mw hmw
      · intro hmapnil
        exact hne (List.map_eq_nil_iff.mp hmapnil)
    have hTne : ((snRatioBins edges).map
        (fun mw => fsky * (2 * mw.1 + 1) * mw.2)).sum ≠ 0 := ne_of_gt hT
    field_simp
    ring

/-- Witness for C4 (amended): `ckk = cgg = css = 1`,
`ckg = cks = csg = 1/2`, one bin `[1,3]`, `f_sky = 1`; here
`σ_Z²`'s flat factor is `1 ≠ 0` and the joint amplitude equals
`r0 = (1/2)/(1/2)`. -/
theorem snRatio_joint_estimator_spec_witness :
    (snRatioCalc (flatSpectra 1 1 1 (1 / 2) (1 / 2) (1 / 2)) zeroNoise
      [1, 3] 1).2.2 = (1 / 2 : ℝ) / (1 / 2) := by
  have hbins : snRatioBins [(1 : ℝ), 3] = [((2 : ℝ), (2 : ℝ))] := by
    unfold snRatioBins
    norm_num
  exact (snRatio_joint_estimator_spec 1 1 1 (1 / 2) (1 / 2) (1 / 2) 1 [1, 3]
    (by norm_num)
    (by unfold sigmaZsqFlat; norm_num)
    (by rw [hbins]; intro mw hmw; simp at hmw; subst hmw; norm_num)
    (by rw [hbins]; simp)).2.2

/-! ## Limber integrator (LimberCosmology.generateCls, lines 201-233)

Per multipole `ell`:
`k = (ell+0.5)/self.chis`
`w[:] = 1; w[k<1e-4] = 0; w[k>=self.kmax] = 0`
`pkin = self.PK.P(self.zs, k, grid=False)`
`common = ((w*pkin)*self.precalcFactor)[self.zs>=zmin]`
`estCl = np.dot(self.dchis[zs>=zmin], common*(W1*W2)[zs>=zmin])`
with `precalcFactor = Hzs**2/chis/chis/c**2` from `_initPower`
(lines 181-195).  numpy boolean-mask indexing `arr[zs>=zmin]` is the
order-preserving filter `maskZ`. -/

def cSpeedKmPerSec : ℚ := 299792458 / 1000

/-- Embedding of `k = (ell+0.5)/chis`, elementwise. -/
def limber_k (ell : ℚ) (chis : List ℚ) : List ℚ :=
  chis.map (fun chi => (ell + 1 / 2) / chi)

/-- The window array `w` after `w[:]=1; w[k<1e-4]=0; w[k>=kmax]=0`. -/
def maskW (kmax : ℚ) (ks : List ℚ) : List ℚ :=
  ks.map (fun k => if k < 1 / 10000 ∨ kmax ≤ k then 0 else 1)

/-- Embedding of `precalcFactor = Hzs**2/chis/chis/c**2` (`_initPower`, line 195). -/
def precalcFactor (Hzs chis : List ℚ) : List ℚ :=
  List.zipWith (fun Hz chi => Hz ^ 2 / chi / chi / cSpeedKmPerSec ^ 2) Hzs chis

/-- Elementwise product of two numpy arrays. -/
def mulList (a b : List ℚ) : List ℚ :=
  List.zipWith (fun x y => x * y) a b

/-- Boolean-mask indexing `vals[zs >= zmin]`. -/
def maskZ (vals zs : List ℚ) (zmin : ℚ) : List ℚ :=
  ((vals.zip zs).filter (fun p => zmin ≤ p.2)).map Prod.fst

/-- Embedding of `np.dot`. -/
def dotList (a b : List ℚ) : ℚ :=
  (List.zipWith (fun x y => x * y) a b).sum

/-- The per-(pair, multipole) scalar `estCl` computed inside
`generateCls`, exactly as the array code does it. -/
def estCl (PK : ℚ → ℚ → ℚ) (kmax zmin : ℚ)
    (chis zs Hzs dchis W1 W2 : List ℚ) (ell : ℚ) : ℚ :=
  let k := limber_k ell chis
  let w := maskW kmax k
  let pkin := List.zipWith PK zs k
  let common := maskZ (mulList (mulList w pkin) (precalcFactor Hzs chis)) zs zmin
  dotList (maskZ dchis zs zmin) (mulList common (maskZ (mulList W1 W2) zs zmin))

/-- The claim's formulation: a single masked sum over grid points. -/
def estClSpec (PK : ℚ → ℚ → ℚ) (kmax zmin : ℚ)
    (chis zs Hzs dchis W1 W2 : List ℚ) (ell : ℚ) : ℚ :=
  ((List.range chis.length).map (fun i =>
    let chi := chis.getD i 0
    let z := zs.getD i 0
    let k := (ell + 1 / 2) / chi
    if zmin ≤ z ∧ 1 / 10000 ≤ k ∧ k < kmax then
      dchis.getD i 0 *
        (PK z k * (Hzs.getD i 0) ^ 2 / chi ^ 2 / cSpeedKmPerSec ^ 2 *
          (W1.getD i 0 * W2.getD i 0))
    else 0)).sum

theorem estCl_cons (PK : ℚ → ℚ → ℚ) (kmax zmin : ℚ)
    (chi z Hz d w1 w2 : ℚ) (chis zs Hzs dchis W1 W2 : List ℚ) (ell : ℚ) :
    estCl PK kmax zmin (chi :: chis) (z :: zs) (Hz :: Hzs) (d :: dchis)
        (w1 :: W1) (w2 :: W2) ell =
      (if zmin ≤ z then
        d * (((if (ell + 1 / 2) / chi < 1 / 10000 ∨ kmax ≤ (ell + 1 / 2) / chi
              then 0 else 1) * PK z ((ell + 1 / 2) / chi)) *
            (Hz ^ 2 / chi / chi / cSpeedKmPerSec ^ 2) * (w1 * w2))
       else 0) +
      estCl PK kmax zmin chis zs Hzs dchis W1 W2 ell := by
  by_cases hz : zmin ≤ z
  · simp only [estCl, limber_k, maskW, precalcFactor, mulList, maskZ, dotList,
      List.map_cons, List.zipWith_cons_cons, List.zip_cons_cons,
      List.filter_cons, List.sum_cons]
    simp only [decide_eq_true_eq]
    rw [if_pos hz, if_pos hz, if_pos hz, if_pos hz]
    simp only [List.map_cons, List.zipWith_cons_cons, List.sum_cons]
  · simp only [estCl, limber_k, maskW, precalcFactor, mulList, maskZ, dotList,
      List.map_cons, List.zipWith_cons_cons, List.zip_cons_cons,
      List.filter_cons, List.sum_cons]
    simp only [decide_eq_true_eq]
    rw [if_neg hz, if_neg hz, if_neg hz, if_neg hz, zero_add]

theorem estClSpec_cons (PK : ℚ → ℚ → ℚ) (kmax zmin : ℚ)
    (chi z Hz d w1 w2 : ℚ) (chis zs Hzs dchis W1 W2 : List ℚ) (ell : ℚ) :
    estClSpec PK kmax zmin (chi :: chis) (z :: zs) (Hz :: Hzs) (d :: dchis)
        (w1 :: W1) (w2 :: W2) ell =
      (if zmin ≤ z ∧ 1 / 10000 ≤ (ell + 1 / 2) / chi ∧ (ell + 1 / 2) / chi < kmax
        then d * (PK z ((ell + 1 / 2) / chi) * Hz ^ 2 / chi ^ 2 /
          cSpeedKmPerSec ^ 2 * (w1 * w2))
        else 0) +
      estClSpec PK kmax zmin chis zs Hzs dchis W1 W2 ell := by
  unfold estClSpec
  rw [List.length_cons, List.range_succ_eq_map, List.map_cons, List.sum_cons,
    List.map_map]
  simp [Function.comp_def, List.getD_cons_zero, List.getD_cons_succ]

/-- Claim C1's core identity: the masked-array computation of `estCl`
equals the claim's single masked dot product over surviving grid points. -/
theorem estCl_eq_spec (PK : ℚ → ℚ → ℚ) (kmax zmin : ℚ) :
    ∀ (chis zs Hzs dchis W1 W2 : List ℚ) (ell : ℚ),
      zs.length = chis.length → Hzs.length = chis.length →
      dchis.length = chis.length → W1.length = chis.length →
      W2.length = chis.length →
      estCl PK kmax zmin chis zs Hzs dchis W1 W2 ell =
        estClSpec PK kmax zmin chis zs Hzs dchis W1 W2 ell := by
  intro chis
  induction chis with
  | nil =>
    intro zs Hzs dchis W1 W2 ell h1 h2 h3 h4 h5
    rw [List.length_nil, List.length_eq_zero] at h1 h2 h3 h4 h5
    subst h1; subst h2; subst h3; subst h4; subst h5
    rfl
  | cons chi chis ih =>
    intro zs Hzs dchis W1 W2 ell h1 h2 h3 h4 h5
    cases zs with
    | nil => simp at h1
    | cons z zs =>
    cases Hzs with
    | nil => simp at h2
    | cons Hz Hzs =>
    cases dchis with
    | nil => simp at h3
    | cons d dchis =>
    cases W1 with
    | nil => simp at h4
    | cons w1 W1 =>
    cases W2 with
    | nil => simp at h5
    | cons w2 W2 =>
    simp only [List.length_cons, Nat.succ_inj] at h1 h2 h3 h4 h5
    rw [estCl_cons, estClSpec_cons, ih zs Hzs dchis W1 W2 ell h1 h2 h3 h4 h5]
    congr 1
    by_cases hz : zmin ≤ z
    · by_cases hw : (ell + 1 / 2) / chi < 1 / 10000 ∨ kmax ≤ (ell + 1 / 2) / chi
      · rw [if_pos hz, if_pos hw]
        rw [if_neg (by
          rintro ⟨-, hk1, hk2⟩
          rcases hw with hw | hw
          · exact absurd hk1 (not_le.mpr hw)
          · exact absurd hk2 (not_lt.mpr hw))]
        ring
      · push_neg at hw
        rw [if_pos hz, if_neg (not_or.mpr ⟨not_lt.mpr hw.1, not_le.mpr hw.2⟩),
          if_pos ⟨hz, hw.1, hw.2⟩]
        ring
    · rw [if_neg hz, if_neg (by rintro ⟨hzz, -⟩; exact hz hzz)]

/-! ## ClMatrix construction and lookup (generateCls / getCl, lines 208-243)

Kernel tags are python strings, modelled as `List Char`; the dict key
`key1+","+key2` becomes `key1 ++ ',' :: key2`.  `listKeys` is
`itertools.combinations_with_replacement(kernels.keys(), 2)`; the dict of
per-pair arrays becomes a first-match association list. -/

/-- Embedding of `itertools.combinations_with_replacement(l, 2)` in iteration order. -/
def combosWR {α : Type} : List α → List (α × α)
  | [] => []
  | x :: xs => (x, x) :: (xs.map (fun y => (x, y)) ++ combosWR xs)

/-- python dict lookup (keys are unique by construction). -/
def alookup {β : Type} (k : List Char) : List (List Char × β) → Option β
  | [] => none
  | kv :: rest => if kv.1 = k then some kv.2 else alookup k rest

theorem alookup_cons {β : Type} (k : List Char) (kv : List Char × β)
    (rest : List (List Char × β)) :
    alookup k (kv :: rest) = if kv.1 = k then some kv.2 else alookup k rest := rfl

/-- Embedding of `LimberCosmology.generateCls`: the stored ClMatrix, mapping each
unordered tag pair (in `combinations_with_replacement` order) to the array
of `estCl` values over the caller's multipole range. -/
def generateCls (PK : ℚ → ℚ → ℚ) (kmax zmin : ℚ) (chis zs Hzs dchis : List ℚ)
    (kernels : List (List Char × List ℚ)) (ellrange : List ℚ) :
    List (List Char × List ℚ) :=
  (combosWR kernels).map (fun p =>
    (p.1.1 ++ ',' :: p.2.1,
      ellrange.map (fun ell =>
        estCl PK kmax zmin chis zs Hzs dchis p.1.2 p.2.2 ell)))

/-- Embedding of `LimberCosmology.getCl`: try the canonical concatenation, then the
reversed one; `none` models the uncaught `KeyError`. -/
def getCl (M : List (List Char × List ℚ)) (key1 key2 : List Char) :
    Option (List ℚ) :=
  match alookup (key1 ++ ',' :: key2) M with
  | some v => some v
  | none => alookup (key2 ++ ',' :: key1) M

theorem combosWR_mem {α : Type} {l : List α} {p : α × α}
    (hp : p ∈ combosWR l) : p.1 ∈ l ∧ p.2 ∈ l := by
  induction l with
  | nil => cases hp
  | cons x t ih =>
    simp only [combosWR, List.mem_cons, List.mem_append, List.mem_map] at hp
    rcases hp with hp | ⟨y, hy, hpy⟩ | hp
    · rw [hp]
      exact ⟨List.mem_cons_self x t, List.mem_cons_self x t⟩
    · rw [← hpy]
      exact ⟨List.mem_cons_self x t, List.mem_cons_of_mem x hy⟩
    · have h := ih hp
      exact ⟨List.mem_cons_of_mem x h.1, List.mem_cons_of_mem x h.2⟩

theorem eq_of_fst_eq_of_nodup {α β : Type} {l : List (α × β)}
    (hnd : (l.map Prod.fst).Nodup) {a b : α × β}
    (ha : a ∈ l) (hb : b ∈ l) (h : a.1 = b.1) : a = b := by
  induction l with
  | nil => cases ha
  | cons x t ih =>
    rw [List.map_cons, List.nodup_cons] at hnd
    rcases List.mem_cons.mp ha with ha1 | ha1 <;>
      rcases List.mem_cons.mp hb with hb1 | hb1
    · rw [ha1, hb1]
    · exfalso
      apply hnd.1
      rw [ha1] at h
      rw [h]
      exact List.mem_map_of_mem Prod.fst hb1
    · exfalso
      apply hnd.1
      rw [hb1] at h
      rw [← h]
      exact List.mem_map_of_mem Prod.fst ha1
    · exact ih hnd.2 ha1 hb1

theorem combosWR_tag_unique {α β : Type} {l : List (α × β)}
    (hnd : (l.map Prod.fst).Nodup) :
    ∀ p ∈ combosWR l, ∀ q ∈ combosWR l,
      p.1.1 = q.1.1 → p.2.1 = q.2.1 → p = q := by
  induction l with
  | nil =>
    intro p hp
    cases hp
  | cons x t ih =>
    rw [List.map_cons, List.nodup_cons] at hnd
    intro p hp q hq h1 h2
    have hmemf : ∀ r : (α × β) × (α × β), r ∈ combosWR t →
        r.1.1 ∈ t.map Prod.fst ∧ r.2.1 ∈ t.map Prod.fst := by
      intro r hr
      have hm := combosWR_mem hr
      exact ⟨List.mem_map_of_mem Prod.fst hm.1, List.mem_map_of_mem Prod.fst hm.2⟩
    simp only [combosWR, List.mem_cons, List.mem_append, List.mem_map] at hp hq
    rcases hp with rfl | ⟨y, hy, rfl⟩ | hp <;>
      rcases hq with rfl | ⟨y', hy', rfl⟩ | hq
    · rfl
    · exfalso
      exact hnd.1 (h2 ▸ List.mem_map_of_mem Prod.fst hy')
    · exfalso
      exact hnd.1 (h1 ▸ (hmemf q hq).1)
    · exfalso
      exact hnd.1 (h2 ▸ List.mem_map_of_mem Prod.fst hy)
    · have : y = y' := eq_of_fst_eq_of_nodup hnd.2 hy hy' h2
      rw [this]
    · exfalso
      exact hnd.1 (h1 ▸ (hmemf q hq).1)
    · exfalso
      exact hnd.1 (h1 ▸ (hmemf p hp).1)
    · exfalso
      exact hnd.1 (h1 ▸ (hmemf p hp).1)
    · exact ih hnd.2 p hp q hq h1 h2

theorem comma_key_inj : ∀ {s1 t1 : List Char} (s2 t2 : List Char),
    ',' ∉ s1 → ',' ∉ t1 →
    s1 ++ ',' :: s2 = t1 ++ ',' :: t2 → s1 = t1 ∧ s2 = t2 := by
  intro s1
  induction s1 with
  | nil =>
    intro t1 s2 t2 h1 h2 h
    cases t1 with
    | nil => simpa using h
    | cons c t1' =>
      exfalso
      rw [List.nil_append, List.cons_append] at h
      injection h with hc htl
      exact h2 (hc ▸ List.mem_cons_self c t1')
  | cons a s1' ih =>
    intro t1 s2 t2 h1 h2 h
    cases t1 with
    | nil =>
      exfalso
      rw [List.cons_append, List.nil_append] at h
      injection h with hc htl
      exact h1 (hc ▸ List.mem_cons_self a s1')
    | cons c t1' =>
      rw [List.cons_append, List.cons_append] at h
      injection h with hac htl
      have h1' : ',' ∉ s1' := fun hm => h1 (List.mem_cons_of_mem a hm)
      have h2' : ',' ∉ t1' := fun hm => h2 (List.mem_cons_of_mem c hm)
      obtain ⟨he, hs⟩ := ih s2 t2 h1' h2' htl
      exact ⟨by rw [hac, he], hs⟩

theorem alookup_map {β γ : Type} (key : γ → List Char) (val : γ → β) :
    ∀ (L : List γ) (p : γ), p ∈ L →
      (∀ q ∈ L, key q = key p → val q = val p) →
      alookup (key p) (L.map (fun q => (key q, val q))) = some (val p) := by
  intro L
  induction L with
  | nil =>
    intro p hp
    cases hp
  | cons x L ih =>
    intro p hp huniq
    rw [List.map_cons, alookup_cons]
    by_cases hx : key x = key p
    · rw [if_pos hx, huniq x (List.mem_cons_self x L) hx]
    · rw [if_neg hx]
      rcases List.mem_cons.mp hp with rfl | hp'
      · exact absurd rfl hx
      · exact ih p hp' (fun q hq => huniq q (List.mem_cons_of_mem x hq))

theorem alookup_eq_none {β : Type} (k : List Char) :
    ∀ M : List (List Char × β), (∀ kv ∈ M, kv.1 ≠ k) → alookup k M = none := by
  intro M
  induction M with
  | nil =>
    intro
    rfl
  | cons x M ih =>
    intro h
    rw [alookup_cons, if_neg (h x (List.mem_cons_self x M))]
    exact ih (fun kv hkv => h kv (List.mem_cons_of_mem x hkv))

theorem combosWR_mem_or {α : Type} {l : List α} {a b : α}
    (ha : a ∈ l) (hb : b ∈ l) :
    (a, b) ∈ combosWR l ∨ (b, a) ∈ combosWR l := by
  induction l with
  | nil => cases ha
  | cons x t ih =>
    rcases List.mem_cons.mp ha with rfl | ha' <;>
      rcases List.mem_cons.mp hb with hb' | hb'
    · left
      rw [hb']
      exact List.mem_cons_self _ _
    · left
      simp only [combosWR, List.mem_cons, List.mem_append, List.mem_map]
      exact Or.inr (Or.inl ⟨b, hb', rfl⟩)
    · right
      rw [hb']
      simp only [combosWR, List.mem_cons, List.mem_append, List.mem_map]
      exact Or.inr (Or.inl ⟨a, ha', rfl⟩)
    · rcases ih ha' hb' with h | h
      · left
        simp only [combosWR, List.mem_cons, List.mem_append]
        exact Or.inr (Or.inr h)
      · right
        simp only [combosWR, List.mem_cons, List.mem_append]
        exact Or.inr (Or.inr h)

theorem combosWR_antisymm {α β : Type} {l : List (α × β)}
    (hnd : (l.map Prod.fst).Nodup) :
    ∀ p ∈ combosWR l, ∀ q ∈ combosWR l,
      p.1.1 = q.2.1 → p.2.1 = q.1.1 → p.1.1 = p.2.1 := by
  induction l with
  | nil =>
    intro p hp
    cases hp
  | cons x t ih =>
    rw [List.map_cons, List.nodup_cons] at hnd
    intro p hp q hq h1 h2
    have hmemf : ∀ r : (α × β) × (α × β), r ∈ combosWR t →
        r.1.1 ∈ t.map Prod.fst ∧ r.2.1 ∈ t.map Prod.fst := by
      intro r hr
      have hm := combosWR_mem hr
      exact ⟨List.mem_map_of_mem Prod.fst hm.1, List.mem_map_of_mem Prod.fst hm.2⟩
    simp only [combosWR, List.mem_cons, List.mem_append, List.mem_map] at hp hq
    rcases hp with rfl | ⟨y, hy, rfl⟩ | hp
    · rfl
    · rcases hq with rfl | ⟨y', hy', rfl⟩ | hq
      · exfalso
        exact hnd.1 (h2 ▸ List.mem_map_of_mem Prod.fst hy)
      · exfalso
        exact hnd.1 (h2 ▸ List.mem_map_of_mem Prod.fst hy)
      · exfalso
        exact hnd.1 (h1 ▸ (hmemf q hq).2)
    · rcases hq with rfl | ⟨y', hy', rfl⟩ | hq
      · exfalso
        exact hnd.1 (h1 ▸ (hmemf p hp).1)
      · exfalso
        exact hnd.1 (h2 ▸ (hmemf p hp).2)
      · exact ih hnd.2 p hp q hq h1 h2

theorem getCl_of_canonical {M : List (List Char × List ℚ)} {k1 k2 : List Char}
    {v : List ℚ} (h : alookup (k1 ++ ',' :: k2) M = some v) :
    getCl M k1 k2 = some v := by
  unfold getCl
  rw [h]

theorem getCl_of_reversed {M : List (List Char × List ℚ)} {k1 k2 : List Char}
    (h : alookup (k1 ++ ',' :: k2) M = none) :
    getCl M k1 k2 = alookup (k2 ++ ',' :: k1) M := by
  unfold getCl
  rw [h]

/-- Lookup of a registered pair's canonical key in the generated ClMatrix
returns that pair's array of `estCl` values. -/
theorem generateCls_lookup (PK : ℚ → ℚ → ℚ) (kmax zmin : ℚ)
    (chis zs Hzs dchis : List ℚ) (kernels : List (List Char × List ℚ))
    (ellrange : List ℚ)
    (hnd : (kernels.map Prod.fst).Nodup)
    (hcf : ∀ t ∈ kernels.map Prod.fst, ',' ∉ t)
    (p : (List Char × List ℚ) × (List Char × List ℚ))
    (hp : p ∈ combosWR kernels) :
    alookup (p.1.1 ++ ',' :: p.2.1)
        (generateCls PK kmax zmin chis zs Hzs dchis kernels ellrange) =
      some (ellrange.map (fun ell =>
        estCl PK kmax zmin chis zs Hzs dchis p.1.2 p.2.2 ell)) := by
  have hkey : ∀ q ∈ combosWR kernels,
      (fun r : (List Char × List ℚ) × (List Char × List ℚ) =>
        r.1.1 ++ ',' :: r.2.1) q =
        (fun r : (List Char × List ℚ) × (List Char × List ℚ) =>
          r.1.1 ++ ',' :: r.2.1) p →
      (fun r : (List Char × List ℚ) × (List Char × List ℚ) =>
        ellrange.map (fun ell =>
          estCl PK kmax zmin chis zs Hzs dchis r.1.2 r.2.2 ell)) q =
        (fun r : (List Char × List ℚ) × (List Char × List ℚ) =>
          ellrange.map (fun ell =>
            estCl PK kmax zmin chis zs Hzs dchis r.1.2 r.2.2 ell)) p := by
    intro q hq hk
    have hqm := combosWR_mem hq
    have hpm := combosWR_mem hp
    have hcfq : ',' ∉ q.1.1 := hcf _ (List.mem_map_of_mem Prod.fst hqm.1)
    have hcfp : ',' ∉ p.1.1 := hcf _ (List.mem_map_of_mem Prod.fst hpm.1)
    obtain ⟨he1, he2⟩ := comma_key_inj _ _ hcfq hcfp hk
    have hqp : q = p := combosWR_tag_unique hnd q hq p hp he1 he2
    rw [hqp]
  exact alookup_map
    (fun r : (List Char × List ℚ) × (List Char × List ℚ) => r.1.1 ++ ',' :: r.2.1)
    (fun r : (List Char × List ℚ) × (List Char × List ℚ) =>
      ellrange.map (fun ell =>
        estCl PK kmax zmin chis zs Hzs dchis r.1.2 r.2.2 ell))
    (combosWR kernels) p hp hkey

/-- Claim C1: for every multipole in the caller's multipole array and
every pair of registered kernel tags, the Limber integrator's stored
ClMatrix entry is the array of per-multipole values
`Σ_i dchi_i * P(z_i,k_i) * H(z_i)²/chi_i²/c² * W1_i * W2_i`, summed over
exactly the grid points surviving both the wavenumber window
`1e-4 ≤ k_i = (ell+0.5)/chi_i < k_max` (points outside it are zeroed) and
the redshift floor `z_i ≥ zmin`. -/
theorem generateCls_spec (PK : ℚ → ℚ → ℚ) (kmax zmin : ℚ)
    (chis zs Hzs dchis : List ℚ) (kernels : List (List Char × List ℚ))
    (ellrange : List ℚ)
    (hnd : (kernels.map Prod.fst).Nodup)
    (hcf : ∀ t ∈ kernels.map Prod.fst, ',' ∉ t)
    (h1 : zs.length = chis.length) (h2 : Hzs.length = chis.length)
    (h3 : dchis.length = chis.length)
    (hW : ∀ kv ∈ kernels, kv.2.length = chis.length)
    (p : (List Char × List ℚ) × (List Char × List ℚ))
    (hp : p ∈ combosWR kernels) :
    alookup (p.1.1 ++ ',' :: p.2.1)
        (generateCls PK kmax zmin chis zs Hzs dchis kernels ellrange) =
      some (ellrange.map (fun ell =>
        estClSpec PK kmax zmin chis zs Hzs dchis p.1.2 p.2.2 ell)) := by
  rw [generateCls_lookup PK kmax zmin chis zs Hzs dchis kernels ellrange
    hnd hcf p hp]
  congr 1
  apply List.map_congr_left
  intro ell _
  exact estCl_eq_spec PK kmax zmin chis zs Hzs dchis p.1.2 p.2.2 ell
    h1 h2 h3 (hW p.1 (combosWR_mem hp).1) (hW p.2 (combosWR_mem hp).2)

/-- Witness for C1 on a two-point grid with two kernels and one
multipole. -/
theorem generateCls_spec_witness :
    alookup (['a'] ++ ',' :: ['b'])
        (generateCls (fun z k => z + k) 10 0 [1, 2] [1, 2] [1, 1] [1, 1]
          [(['a'], [1, 1]), (['b'], [2, 2])] [1]) =
      some ([1].map (fun ell =>
        estClSpec (fun z k => z + k) 10 0 [1, 2] [1, 2] [1, 1] [1, 1]
          [1, 1] [2, 2] ell)) :=
  generateCls_spec (fun z k => z + k) 10 0 [1, 2] [1, 2] [1, 1] [1, 1]
    [(['a'], [1, 1]), (['b'], [2, 2])] [1]
    (by decide) (by decide) (by decide) (by decide) (by decide) (by decide)
    ((['a'], [1, 1]), (['b'], [2, 2])) (by decide)

/-- Claim C7: after `generateCls` has run, the ClMatrix lookup is
symmetric in its tag arguments — `getCl a b` and `getCl b a` return
exactly the same array, and a lookup succeeds for every registered tag
pair; moreover the reversed concatenation is tried on a miss of the
canonical order before any not-found condition is signalled. -/
theorem getCl_symmetric (PK : ℚ → ℚ → ℚ) (kmax zmin : ℚ)
    (chis zs Hzs dchis : List ℚ) (kernels : List (List Char × List ℚ))
    (ellrange : List ℚ)
    (hnd : (kernels.map Prod.fst).Nodup)
    (hcf : ∀ t ∈ kernels.map Prod.fst, ',' ∉ t)
    (a b : List Char) (Wa Wb : List ℚ)
    (ha : (a, Wa) ∈ kernels) (hb : (b, Wb) ∈ kernels) :
    (getCl (generateCls PK kmax zmin chis zs Hzs dchis kernels ellrange) a b =
      getCl (generateCls PK kmax zmin chis zs Hzs dchis kernels ellrange) b a) ∧
    (getCl (generateCls PK kmax zmin chis zs Hzs dchis kernels ellrange)
      a b).isSome = true ∧
    (∀ (M : List (List Char × List ℚ)) (k1 k2 : List Char),
      alookup (k1 ++ ',' :: k2) M = none →
      getCl M k1 k2 = alookup (k2 ++ ',' :: k1) M) := by
  have hcfa : ',' ∉ a := hcf a (List.mem_map_of_mem Prod.fst ha)
  have hcfb : ',' ∉ b := hcf b (List.mem_map_of_mem Prod.fst hb)
  have hnone : ∀ (p : (List Char × List ℚ) × (List Char × List ℚ)),
      p ∈ combosWR kernels → p.1.1 ≠ p.2.1 →
      alookup (p.2.1 ++ ',' :: p.1.1)
        (generateCls PK kmax zmin chis zs Hzs dchis kernels ellrange) = none := by
    intro p hp hab
    apply alookup_eq_none
    intro kv hkv hkey
    obtain ⟨q, hq, rfl⟩ := List.mem_map.mp hkv
    have hqm := combosWR_mem hq
    have hcfq : ',' ∉ q.1.1 := hcf _ (List.mem_map_of_mem Prod.fst hqm.1)
    have hcfp2 : ',' ∉ p.2.1 :=
      hcf _ (List.mem_map_of_mem Prod.fst (combosWR_mem hp).2)
    obtain ⟨he1, he2⟩ := comma_key_inj _ _ hcfq hcfp2 hkey
    exact hab (combosWR_antisymm hnd p hp q hq he2.symm he1.symm)
  refine ⟨?_, ?_, ?_⟩
  · rcases combosWR_mem_or ha hb with h | h
    · have hsome := generateCls_lookup PK kmax zmin chis zs Hzs dchis kernels
        ellrange hnd hcf ((a, Wa), (b, Wb)) h
      by_cases hab : a = b
      · subst hab
        rfl
      · have hn := hnone ((a, Wa), (b, Wb)) h hab
        rw [getCl_of_canonical hsome, getCl_of_reversed hn, hsome]
    · have hsome := generateCls_lookup PK kmax zmin chis zs Hzs dchis kernels
        ellrange hnd hcf ((b, Wb), (a, Wa)) h
      by_cases hab : b = a
      · subst hab
        rfl
      · have hn := hnone ((b, Wb), (a, Wa)) h hab
        rw [getCl_of_canonical hsome, getCl_of_reversed hn, hsome]
  · rcases combosWR_mem_or ha hb with h | h
    · have hsome := generateCls_lookup PK kmax zmin chis zs Hzs dchis kernels
        ellrange hnd hcf ((a, Wa), (b, Wb)) h
      rw [getCl_of_canonical hsome]
      rfl
    · have hsome := generateCls_lookup PK kmax zmin chis zs Hzs dchis kernels
        ellrange hnd hcf ((b, Wb), (a, Wa)) h
      by_cases hab : b = a
      · subst hab
        rw [getCl_of_canonical hsome]
        rfl
      · have hn := hnone ((b, Wb), (a, Wa)) h hab
        rw [getCl_of_reversed hn, hsome]
        rfl
  · intro M k1 k2 hmiss
    exact getCl_of_reversed hmiss

/-- Witness for C7 on the same two-kernel configuration. -/
theorem getCl_symmetric_witness :
    getCl (generateCls (fun z k => z + k) 10 0 [1, 2] [1, 2] [1, 1] [1, 1]
        [(['a'], [1, 1]), (['b'], [2, 2])] [1]) ['a'] ['b'] =
      getCl (generateCls (fun z k => z + k) 10 0 [1, 2] [1, 2] [1, 1] [1, 1]
        [(['a'], [1, 1]), (['b'], [2, 2])] [1]) ['b'] ['a'] :=
  (getCl_symmetric (fun z k => z + k) 10 0 [1, 2] [1, 2] [1, 1] [1, 1]
    [(['a'], [1, 1]), (['b'], [2, 2])] [1] (by decide) (by decide)
    ['a'] ['b'] [1, 1] [2, 2] (by decide) (by decide)).1

/-! ## Spectrum store lookups (TheorySpectra.gCl / _Cl, lines 505-577)

The three python dicts `_uCl`, `_lCl`, `_gCl` (key → interpolated
spectrum function) become association lists of `(List Char, ℚ → ℚ)`; a
raised `KeyError`/`ValueError`/failed assert becomes `Except.error ()`.

`_Cl` validates the two-letter code, canonicalizes `ET → TE`, looks the
code up in the lensed or unlensed table, and on a miss returns zero for
the parity-odd codes `EB`/`TB` (either orientation) and raises otherwise.
`gCl` dispatches three-letter `u…`/`l…` codes to `_Cl` and otherwise
looks the key up in the generic table under both orientations, raising on
a double miss. -/

/-- Embedding of `validateMapType` (line 589): exactly two characters drawn from T, E, B. -/
def validateMapType (m : List Char) : Bool :=
  m.length = 2 && m.all (fun c => c = 'T' || c = 'E' || c = 'B')

/-- The parity-forbidden codes `zspecs = ['EB','TB']`. -/
def zspecs : List (List Char) := [['E', 'B'], ['T', 'B']]

/-- The three spectrum tables of a `TheorySpectra` object. -/
structure TheorySpectraX where
  uS : List (List Char × (ℚ → ℚ))
  lS : List (List Char × (ℚ → ℚ))
  gS : List (List Char × (ℚ → ℚ))

/-- Embedding of `TheorySpectra._Cl`. -/
def ClX (ts : TheorySpectraX) (XYType : List Char) (ell : ℚ)
    (lensed : Bool) : Except Unit ℚ :=
  if validateMapType (XYType.map Char.toUpper) = true then
    match alookup
        (if XYType.map Char.toUpper = ['E', 'T'] then ['T', 'E']
          else XYType.map Char.toUpper)
        (if lensed then ts.lS else ts.uS) with
    | some f => Except.ok (f ell)
    | none =>
      if XYType ∈ zspecs ∨ XYType.reverse ∈ zspecs then Except.ok 0
      else Except.error ()
  else Except.error ()

/-- Embedding of `TheorySpectra.uCl`. -/
def uClX (ts : TheorySpectraX) (XYType : List Char) (ell : ℚ) : Except Unit ℚ :=
  ClX ts XYType ell false

/-- Embedding of `TheorySpectra.lCl`. -/
def lClX (ts : TheorySpectraX) (XYType : List Char) (ell : ℚ) : Except Unit ℚ :=
  ClX ts XYType ell true

/-- Embedding of `TheorySpectra.gCl`. -/
def gClX (ts : TheorySpectraX) (keyName : List Char) (ell : ℚ) : Except Unit ℚ :=
  if keyName.length = 3 then
    match keyName with
    | [] => Except.error ()
    | c :: rest =>
      if c.toLower = 'u' then uClX ts rest ell
      else if c.toLower = 'l' then lClX ts rest ell
      else Except.error ()
  else
    match alookup keyName ts.gS with
    | some f => Except.ok (f ell)
    | none =>
      match alookup keyName.reverse ts.gS with
      | some f => Except.ok (f ell)
      | none => Except.error ()

/-- A freshly constructed store with nothing registered. -/
def emptyTS : TheorySpectraX := ⟨[], [], []⟩

/-- Counterexample to claim C6 as stated: querying `gCl` with the bare
two-letter codes `EB`/`TB` (or `BE`/`BT`) consults only the generic
table, where neither orientation is registered, so the call raises a
`KeyError` — it does not return zero.  (The zero-by-parity behavior lives
in `_Cl`, reached through `uCl`/`lCl` or three-letter `gCl` codes.) -/
theorem gCl_parity_counterexample :
    gClX emptyTS ['E', 'B'] 100 = Except.error () ∧
    gClX emptyTS ['T', 'B'] 100 = Except.error () ∧
    gClX emptyTS ['B', 'E'] 100 = Except.error () ∧
    gClX emptyTS ['B', 'T'] 100 = Except.error () ∧
    (Except.error () : Except Unit ℚ) ≠ Except.ok 0 :=
  ⟨rfl, rfl, rfl, rfl, by simp⟩

theorem ClX_eq_of_lookup_none (ts : TheorySpectraX) (XYType : List Char)
    (ell : ℚ) (lensed : Bool)
    (hv : validateMapType (XYType.map Char.toUpper) = true)
    (h : alookup
      (if XYType.map Char.toUpper = ['E', 'T'] then ['T', 'E']
        else XYType.map Char.toUpper)
      (if lensed then ts.lS else ts.uS) = none) :
    ClX ts XYType ell lensed =
      if XYType ∈ zspecs ∨ XYType.reverse ∈ zspecs then Except.ok 0
      else Except.error () := by
  unfold ClX
  rw [if_pos hv, h]

/-- Claim C6 (amended): the parity-odd codes `EB`/`TB` (and reversals)
resolve to zero, without error, through the polarization lookups
`uCl`/`lCl` — equivalently through `gCl` with a `u`/`l`-prefixed
three-letter code — whenever they are not registered in the corresponding
table; but a bare two-letter `gCl` query consults only the generic table
and fails when neither ordering is registered there (even for `EB`), and
any other spectrum key registered under neither ordering fails with an
error. -/
theorem theorySpectra_parity_spec (ts : TheorySpectraX) (ell : ℚ)
    (hEBl : alookup ['E', 'B'] ts.lS = none)
    (hTBl : alookup ['T', 'B'] ts.lS = none)
    (hBEl : alookup ['B', 'E'] ts.lS = none)
    (hBTl : alookup ['B', 'T'] ts.lS = none)
    (hEBu : alookup ['E', 'B'] ts.uS = none)
    (hTBu : alookup ['T', 'B'] ts.uS = none)
    (hEBg : alookup ['E', 'B'] ts.gS = none)
    (hBEg : alookup ['B', 'E'] ts.gS = none)
    (hTTl : alookup ['T', 'T'] ts.lS = none) :
    (lClX ts ['E', 'B'] ell = Except.ok 0 ∧
      lClX ts ['T', 'B'] ell = Except.ok 0 ∧
      lClX ts ['B', 'E'] ell = Except.ok 0 ∧
      lClX ts ['B', 'T'] ell = Except.ok 0 ∧
      uClX ts ['E', 'B'] ell = Except.ok 0 ∧
      uClX ts ['T', 'B'] ell = Except.ok 0) ∧
    (gClX ts ['l', 'E', 'B'] ell = Except.ok 0 ∧
      gClX ts ['u', 'T', 'B'] ell = Except.ok 0) ∧
    gClX ts ['E', 'B'] ell = Except.error () ∧
    lClX ts ['T', 'T'] ell = Except.error () := by
  have hlEB : lClX ts ['E', 'B'] ell = Except.ok 0 := by
    rw [show lClX ts ['E', 'B'] ell = ClX ts ['E', 'B'] ell true from rfl,
      ClX_eq_of_lookup_none ts ['E', 'B'] ell true rfl hEBl]
    rfl
  have hlTB : lClX ts ['T', 'B'] ell = Except.ok 0 := by
    rw [show lClX ts ['T', 'B'] ell = ClX ts ['T', 'B'] ell true from rfl,
      ClX_eq_of_lookup_none ts ['T', 'B'] ell true rfl hTBl]
    rfl
  have hlBE : lClX ts ['B', 'E'] ell = Except.ok 0 := by
    rw [show lClX ts ['B', 'E'] ell = ClX ts ['B', 'E'] ell true from rfl,
      ClX_eq_of_lookup_none ts ['B', 'E'] ell true rfl hBEl]
    rfl
  have hlBT : lClX ts ['B', 'T'] ell = Except.ok 0 := by
    rw [show lClX ts ['B', 'T'] ell = ClX ts ['B', 'T'] ell true from rfl,
      ClX_eq_of_lookup_none ts ['B', 'T'] ell true rfl hBTl]
    rfl
  have huEB : uClX ts ['E', 'B'] ell = Except.ok 0 := by
    rw [show uClX ts ['E', 'B'] ell = ClX ts ['E', 'B'] ell false from rfl,
      ClX_eq_of_lookup_none ts ['E', 'B'] ell false rfl hEBu]
    rfl
  have huTB : uClX ts ['T', 'B'] ell = Except.ok 0 := by
    rw [show uClX ts ['T', 'B'] ell = ClX ts ['T', 'B'] ell false from rfl,
      ClX_eq_of_lookup_none ts ['T', 'B'] ell false rfl hTBu]
    rfl
  have hgEB : gClX ts ['E', 'B'] ell = Except.error () := by
    show (match alookup ['E', 'B'] ts.gS with
      | some f => Except.ok (f ell)
      | none =>
        match alookup ['B', 'E'] ts.gS with
        | some f => Except.ok (f ell)
        | none => Except.error ()) = Except.error ()
    rw [hEBg, hBEg]
  have hlTT : lClX ts ['T', 'T'] ell = Except.error () := by
    rw [show lClX ts ['T', 'T'] ell = ClX ts ['T', 'T'] ell true from rfl,
      ClX_eq_of_lookup_none ts ['T', 'T'] ell true rfl hTTl]
    rfl
  exact ⟨⟨hlEB, hlTB, hlBE, hlBT, huEB, huTB⟩,
    ⟨by rw [show gClX ts ['l', 'E', 'B'] ell = lClX ts ['E', 'B'] ell from rfl,
        hlEB],
      by rw [show gClX ts ['u', 'T', 'B'] ell = uClX ts ['T', 'B'] ell from rfl,
        huTB]⟩,
    hgEB, hlTT⟩

/-- Witness for C6 (amended) on the empty store at `ell = 7`. -/
theorem theorySpectra_parity_spec_witness :
    lClX emptyTS ['E', 'B'] 7 = Except.ok 0 ∧
    gClX emptyTS ['l', 'E', 'B'] 7 = Except.ok 0 ∧
    gClX emptyTS ['E', 'B'] 7 = Except.error () ∧
    lClX emptyTS ['T', 'T'] 7 = Except.error () := by
  have h := theorySpectra_parity_spec emptyTS 7 rfl rfl rfl rfl rfl rfl rfl rfl rfl
  exact ⟨h.1.1, h.2.1.1, h.2.2.1, h.2.2.2⟩

end Orphics
